import Mathlib

/-!
Verification development for a file-organizer program.

The program scans a target directory, classifies each regular file by its
extension, and moves it into a label subdirectory named after the extension,
with dry-run support, optional recursion, and collision-safe renaming.

The filesystem is modelled as finite lists of file paths and directory paths;
a path is its list of components from the root.  Every function below is a
shallow embedding of the corresponding function of `file_organizer.py`,
translated clause by clause from the source.
-/

namespace FileOrganizer

/-- Model of a filesystem path: the list of its components.  The last
component is the entry's name (`Path.name`), the rest its parent. -/
abbrev FsPath := List String

/-- Model of the filesystem state: the finite set of regular files and the
finite set of directories, each kept as a list of paths.  The list order of
`files` fixes the platform's directory-iteration order used by the walker. -/
structure FS where
  files : List FsPath
  dirs : List FsPath
deriving DecidableEq

/-- Model of `Path.exists`: the path refers to some filesystem entry. -/
def pathExists (fs : FS) (p : FsPath) : Prop :=
  p ∈ fs.files ∨ p ∈ fs.dirs

instance (fs : FS) (p : FsPath) : Decidable (pathExists fs p) := by
  unfold pathExists
  exact inferInstance

/-- Total number of filesystem entries; used as the a-priori bound on the
collision-resolution search. -/
def totalEntries (fs : FS) : Nat :=
  fs.files.length + fs.dirs.length

/-- Model of `Path.name`: the last component of a path. -/
def pname (p : FsPath) : String :=
  match p.getLast? with
  | some s => s
  | none => ""

/-- Text after the last dot of a character list, if the list has a dot at
all.  Helper for the pathlib `suffix` and `stem` computations. -/
def lastDotSuffix : List Char → Option (List Char)
  | [] => none
  | c :: rest =>
    match lastDotSuffix rest with
    | some s => some s
    | none => if c = '.' then some rest else none

/-- Model of pathlib `Path.suffix` on a file name: the final `.ext` part.
pathlib returns `name[i:]` for `i = name.rfind('.')` when `0 < i < len - 1`,
else the empty string.  With `rest` the text after the last dot, the index
condition `0 < i` is `rest.length + 1 < name.length` (text before the dot is
non-empty) and `i < len - 1` is `rest ≠ []` (text after the dot non-empty). -/
def py_suffix (name : String) : String :=
  match lastDotSuffix name.data with
  | none => ""
  | some rest =>
    if rest ≠ [] ∧ rest.length + 1 < name.data.length then ⟨'.' :: rest⟩ else ""

/-- Model of pathlib `Path.stem` on a file name: `name[:i]` under the same
index condition as `py_suffix`, else the whole name. -/
def py_stem (name : String) : String :=
  match lastDotSuffix name.data with
  | none => name
  | some rest =>
    if rest ≠ [] ∧ rest.length + 1 < name.data.length then
      ⟨name.data.take (name.data.length - rest.length - 1)⟩
    else name

/-- Model of Python `str.lower` (the program only lowercases extension
text; basic-latin lowering baked into `Char.toLower` is the behaviour the
program relies on). -/
def str_lower (s : String) : String :=
  ⟨s.data.map Char.toLower⟩

/-- Model of Python `str.lstrip "."`: drop every leading dot. -/
def lstrip_dot (s : String) : String :=
  ⟨s.data.dropWhile (fun c => c = '.')⟩

/-- Embedding of `extension_folder_name` (source lines 56-60): the label is
the extension lowercased with leading dots stripped, or the sentinel
`no_extension` when the extension is empty. -/
def extension_folder_name (ext : String) : String :=
  if ext = "" then "no_extension" else lstrip_dot (str_lower ext)

/-- Fuel-bounded decimal rendering: structural recursion on the fuel keeps
the definition kernel-computable; any fuel above the number itself is
enough, since the value shrinks by a factor of ten per step. -/
def decDigitsAux : Nat → Nat → List Char
  | 0, _ => []
  | fuel + 1, n =>
    if n < 10 then [Nat.digitChar n]
    else decDigitsAux fuel (n / 10) ++ [Nat.digitChar (n % 10)]

/-- Decimal digit list of a natural number, most significant digit first;
models the rendering of `idx` inside the f-string of `unique_destination`. -/
def decDigits (n : Nat) : List Char :=
  decDigitsAux (n + 1) n

/-- Embedding of the f-string `f"{stem}({idx}){suffix}"` of source line 78,
at the character-list level of the strings involved. -/
def candName (stem sfx : String) (idx : Nat) : String :=
  ⟨stem.data ++ '(' :: (decDigits idx ++ ')' :: sfx.data)⟩

/-- Candidate path number `idx` for a desired destination `d`: the
disambiguated name placed in `d`'s parent directory (source lines 72-78). -/
def cand_path (d : FsPath) (idx : Nat) : FsPath :=
  d.dropLast ++ [candName (py_stem (pname d)) (py_suffix (pname d)) idx]

/-- Fuel-bounded embedding of the `while True` search of `unique_destination`
(source lines 76-81): try `cand idx`, `cand (idx+1)`, ... until a free path
is found, or give up after `fuel` attempts.  The fuel is an artifact of the
embedding; `findFree_terminates` below proves that the fuel chosen by
`unique_destination` is never exhausted, so the `none` case is unreachable
and the embedding computes exactly what the unbounded source loop computes. -/
def findFree (fs : FS) (cand : Nat → FsPath) : Nat → Nat → Option FsPath
  | 0, _ => none
  | fuel + 1, idx =>
    if pathExists fs (cand idx) then findFree fs cand fuel (idx + 1)
    else some (cand idx)

/-- Embedding of `unique_destination` (source lines 63-81): return `dest`
unchanged when it does not exist, else search for the first free
disambiguated candidate starting at index 1. -/
def unique_destination (fs : FS) (dest : FsPath) : FsPath :=
  if pathExists fs dest then
    match findFree fs (cand_path dest) (totalEntries fs + 1) 1 with
    | some p => p
    | none => dest
  else dest

/-- Nonempty prefixes of a path, shortest first: the chain of directories
`mkdir(parents := true)` walks. -/
def prefixList (p : FsPath) : List FsPath :=
  (List.range p.length).map (fun i => p.take (i + 1))

/-- Record one directory in the filesystem state if it is not already
present (the `exist_ok` behaviour of `Path.mkdir`). -/
def addDir (fs : FS) (q : FsPath) : FS :=
  if q ∈ fs.dirs then fs else { fs with dirs := fs.dirs ++ [q] }

/-- Model of `dest_dir.mkdir(parents := true, exist_ok := true)` (source
line 89): create every missing ancestor of `p` and `p` itself. -/
def mkdir_parents (fs : FS) (p : FsPath) : FS :=
  (prefixList p).foldl addDir fs

/-- Model of `shutil.move` for a regular file onto a non-existing
destination path: the file leaves its old path and appears at the new one. -/
def do_move (fs : FS) (src dst : FsPath) : FS :=
  { fs with files := fs.files.erase src ++ [dst] }

/-- Embedding of `move_file` (source lines 84-99): create the destination
directory, resolve collisions, then either simulate (dry run) or perform the
move.  Returns the new filesystem state plus the `(final_dest, action)`
pair returned by the source. -/
def move_file (fs : FS) (src : FsPath) (dest_dir : FsPath) (dry_run : Bool) :
    FS × FsPath × String :=
  let fs1 := mkdir_parents fs dest_dir
  let dest := dest_dir ++ [pname src]
  let final_dest := unique_destination fs1 dest
  if dry_run then (fs1, final_dest, "dry-run")
  else (do_move fs1 src final_dest, final_dest, "moved")

/-- Embedding of `get_files_to_move` (source lines 45-53): all regular
files strictly below `root` when recursive, else the regular files that are
direct children of `root`.  Directories never satisfy `is_file`, so only
`fs.files` is consulted; list order models directory-iteration order. -/
def get_files_to_move (fs : FS) (root : FsPath) (recursive : Bool) : List FsPath :=
  if recursive then
    fs.files.filter (fun p => decide (root <+: p ∧ p ≠ root))
  else
    fs.files.filter (fun p => decide (p.dropLast = root))

/-- Destination-directory placement policy of the loop body of
`organize_directory` (source lines 127-135): the label folder lives under
the target root when `keep_top_level` is true, else under the file's
current parent. -/
def dest_dir_for (target : FsPath) (keep_top_level : Bool) (f : FsPath) : FsPath :=
  let folder_name := extension_folder_name (py_suffix (pname f))
  if keep_top_level then target ++ [folder_name] else f.dropLast ++ [folder_name]

/-- One iteration of the `for f in files` loop of `organize_directory`
(source lines 127-139): move the file and bump the counter when the action
tag is `moved` or `dry-run`. -/
def processOne (target : FsPath) (keep_top_level dry_run : Bool)
    (st : FS × Nat) (f : FsPath) : FS × Nat :=
  let res := move_file st.1 f (dest_dir_for target keep_top_level f) dry_run
  (res.1, if res.2.2 = "moved" ∨ res.2.2 = "dry-run" then st.2 + 1 else st.2)

/-- Embedding of `organize_directory` (source lines 102-142): validate the
target, materialize the walker's snapshot once, then fold the per-file loop
over it.  Returns the final filesystem state and the moved-count the source
returns. -/
def organize_directory (fs : FS) (target : FsPath)
    (recursive dry_run keep_top_level : Bool) : FS × Nat :=
  if target ∈ fs.dirs then
    (get_files_to_move fs target recursive).foldl
      (processOne target keep_top_level dry_run) (fs, 0)
  else (fs, 0)

/-! Character-level facts about `Char.toLower`, used to analyse the
`lower` and `lstrip` steps of the classifier. -/

theorem toLower_eq_expand (c : Char) :
    c.toLower = if c.toNat ≥ 65 ∧ c.toNat ≤ 90 then Char.ofNat (c.toNat + 32) else c := rfl

theorem toNat_ofNat_valid (n : Nat) (hv : n.isValidChar) : (Char.ofNat n).toNat = n := by
  rw [Char.ofNat, dif_pos hv]
  simp [Char.ofNatAux, Char.toNat, UInt32.toNat, BitVec.toNat_ofNatLt]

/-- Lowering a character can only produce a basic-latin lowercase letter or
leave the character unchanged, so it never turns a character into a
character of code below 97 it was not already equal to. -/
theorem toLower_ne_of_ne (c d : Char) (hd : d.toNat < 97) (h : c ≠ d) : c.toLower ≠ d := by
  rw [toLower_eq_expand]
  split
  · next hc =>
      intro heq
      have hv : (c.toNat + 32).isValidChar := by
        unfold Nat.isValidChar
        left
        omega
      have h2 : (Char.ofNat (c.toNat + 32)).toNat = c.toNat + 32 := toNat_ofNat_valid _ hv
      rw [heq] at h2
      omega
  · exact h

/-! Structure of `lastDotSuffix` and of the pathlib suffix computation. -/

theorem lastDotSuffix_none_iff (cs : List Char) : lastDotSuffix cs = none ↔ '.' ∉ cs := by
  induction cs with
  | nil => simp [lastDotSuffix]
  | cons c rest ih =>
      rw [lastDotSuffix]
      cases hrec : lastDotSuffix rest with
      | some s =>
          simp only [hrec]
          have : '.' ∈ rest := by
            by_contra hmem
            rw [ih.2 hmem] at hrec
            cases hrec
          simp [this]
      | none =>
          simp only [hrec]
          by_cases hc : c = '.'
          · simp [hc]
          · simp [if_neg hc, List.mem_cons, Ne.symm hc, ih.1 hrec]

theorem lastDotSuffix_append (pre E : List Char) (h : '.' ∉ E) :
    lastDotSuffix (pre ++ '.' :: E) = some E := by
  induction pre with
  | nil => simp [lastDotSuffix, (lastDotSuffix_none_iff E).2 h]
  | cons c pre ih => simp [lastDotSuffix, ih]

theorem lastDotSuffix_some (cs rest : List Char) (h : lastDotSuffix cs = some rest) :
    ∃ pre, cs = pre ++ '.' :: rest ∧ '.' ∉ rest := by
  induction cs generalizing rest with
  | nil => simp [lastDotSuffix] at h
  | cons c cs ih =>
      rw [lastDotSuffix] at h
      cases hrec : lastDotSuffix cs with
      | some s =>
          rw [hrec] at h
          cases h
          obtain ⟨pre, hpre, hnd⟩ := ih rest hrec
          exact ⟨c :: pre, by rw [hpre]; rfl, hnd⟩
      | none =>
          rw [hrec] at h
          by_cases hc : c = '.'
          · rw [if_pos hc] at h
            cases h
            exact ⟨[], by rw [hc]; rfl, (lastDotSuffix_none_iff cs).1 hrec⟩
          · rw [if_neg hc] at h
            cases h

theorem py_suffix_split (pre E : List Char) (hE : '.' ∉ E) (hpre : pre ≠ []) (hne : E ≠ []) :
    py_suffix ⟨pre ++ '.' :: E⟩ = ⟨'.' :: E⟩ := by
  have hlen : 0 < pre.length := List.length_pos.2 hpre
  simp only [py_suffix, lastDotSuffix_append pre E hE]
  rw [if_pos]
  refine ⟨hne, ?_⟩
  simp only [List.length_append, List.length_cons]
  omega

theorem py_suffix_of_no_dot (name : String) (h : '.' ∉ name.data) : py_suffix name = "" := by
  simp only [py_suffix, (lastDotSuffix_none_iff name.data).2 h]

/-- Reduction of the classifier on a genuine suffix `.E`: the label is `E`
lowercased, with no further dots to strip since `E` holds none. -/
theorem label_of_suffix (E : List Char) (hE : '.' ∉ E) (hne : E ≠ []) :
    extension_folder_name ⟨'.' :: E⟩ = ⟨E.map Char.toLower⟩ := by
  have hcond : (⟨'.' :: E⟩ : String) ≠ "" := by
    simp [String.ext_iff]
  unfold extension_folder_name
  rw [if_neg hcond]
  unfold lstrip_dot str_lower
  obtain ⟨e, E', rfl⟩ : ∃ e E', E = e :: E' := by
    cases E with
    | nil => exact absurd rfl hne
    | cons a b => exact ⟨a, b, rfl⟩
  have h1 : Char.toLower '.' = '.' := by decide
  have h2 : Char.toLower e ≠ '.' :=
    toLower_ne_of_ne e '.' (by decide) (by
      intro h
      exact hE (by simp [h]))
  simp [List.dropWhile, h1, h2]

/-! Facts about the decimal rendering of the collision index. -/

theorem digitChar_toNat (m : Nat) (h : m < 10) : (Nat.digitChar m).toNat = m + 48 := by
  interval_cases m <;> rfl

theorem digitChar_ne_rparen (m : Nat) (h : m < 10) : Nat.digitChar m ≠ ')' := by
  interval_cases m <;> decide

theorem rparen_not_mem_decDigitsAux (fuel : Nat) :
    ∀ n, n < fuel → ')' ∉ decDigitsAux fuel n := by
  induction fuel with
  | zero => intro n h; exact absurd h (by omega)
  | succ fuel ih =>
      intro n h
      simp only [decDigitsAux]
      by_cases h10 : n < 10
      · rw [if_pos h10]
        simp [Ne.symm (digitChar_ne_rparen n h10)]
      · rw [if_neg h10]
        simp only [List.mem_append, List.mem_singleton, not_or]
        have hq : n / 10 < n := Nat.div_lt_self (by omega) (by omega)
        refine ⟨ih (n / 10) (by omega), ?_⟩
        exact Ne.symm (digitChar_ne_rparen (n % 10) (Nat.mod_lt n (by omega)))

theorem rparen_not_mem_decDigits (n : Nat) : ')' ∉ decDigits n :=
  rparen_not_mem_decDigitsAux (n + 1) n (by omega)

theorem decDigitsAux_foldl (fuel : Nat) :
    ∀ n, n < fuel → ∀ a,
      List.foldl (fun a c => 10 * a + (c.toNat - 48)) a (decDigitsAux fuel n) =
        a * 10 ^ (decDigitsAux fuel n).length + n := by
  induction fuel with
  | zero => intro n h; exact absurd h (by omega)
  | succ fuel ih =>
      intro n h a
      simp only [decDigitsAux]
      by_cases h10 : n < 10
      · rw [if_pos h10]
        simp [List.foldl, digitChar_toNat n h10]
        omega
      · rw [if_neg h10]
        have hq : n / 10 < n := Nat.div_lt_self (by omega) (by omega)
        rw [List.foldl_append, ih (n / 10) (by omega) a]
        simp only [List.foldl, List.length_append, List.length_cons, List.length_nil]
        rw [digitChar_toNat (n % 10) (Nat.mod_lt n (by omega))]
        have hmod := Nat.div_add_mod n 10
        generalize (decDigitsAux fuel (n / 10)).length = L
        rw [pow_succ]
        have hring : a * (10 ^ L * 10) = a * 10 ^ L * 10 := by ring
        rw [hring]
        omega

theorem decDigits_foldl (n : Nat) :
    ∀ a, List.foldl (fun a c => 10 * a + (c.toNat - 48)) a (decDigits n) =
      a * 10 ^ (decDigits n).length + n :=
  decDigitsAux_foldl (n + 1) n (by omega)

theorem decDigits_inj (m n : Nat) (h : decDigits m = decDigits n) : m = n := by
  have h1 := decDigits_foldl m 0
  have h2 := decDigits_foldl n 0
  rw [h] at h1
  simp only [Nat.zero_mul, Nat.zero_add] at h1 h2
  rw [h1] at h2
  exact h2

/-- A common tail that starts with a character absent from both prefixes
pins down where the prefixes end. -/
theorem append_cons_cancel (c : Char) (s : List Char) :
    ∀ (l1 l2 : List Char), c ∉ l1 → c ∉ l2 → l1 ++ c :: s = l2 ++ c :: s → l1 = l2 := by
  intro l1
  induction l1 with
  | nil =>
      intro l2 _ h2 h
      cases l2 with
      | nil => rfl
      | cons b l2 =>
          exfalso
          simp only [List.nil_append, List.cons_append, List.cons.injEq] at h
          exact h2 (by simp [h.1])
  | cons a l1 ih =>
      intro l2 h1 h2 h
      cases l2 with
      | nil =>
          exfalso
          simp only [List.cons_append, List.nil_append, List.cons.injEq] at h
          exact h1 (by simp [h.1])
      | cons b l2 =>
          simp only [List.cons_append, List.cons.injEq] at h
          have := ih l2 (fun hm => h1 (List.mem_cons_of_mem a hm))
            (fun hm => h2 (List.mem_cons_of_mem b hm)) h.2
          rw [h.1, this]

theorem candName_inj (st sf : String) (i j : Nat)
    (h : candName st sf i = candName st sf j) : i = j := by
  unfold candName at h
  have hd : st.data ++ '(' :: (decDigits i ++ ')' :: sf.data) =
      st.data ++ '(' :: (decDigits j ++ ')' :: sf.data) := congrArg String.data h
  have h2 := List.append_cancel_left hd
  injection h2 with _ h3
  exact decDigits_inj i j
    (append_cons_cancel ')' sf.data _ _ (rparen_not_mem_decDigits i)
      (rparen_not_mem_decDigits j) h3)

theorem cand_path_inj (d : FsPath) (i j : Nat) (h : cand_path d i = cand_path d j) :
    i = j := by
  unfold cand_path at h
  have h2 := List.append_cancel_left h
  injection h2 with h3 _
  exact candName_inj _ _ i j h3

theorem cand_path_dropLast (d : FsPath) (k : Nat) :
    (cand_path d k).dropLast = d.dropLast := by
  unfold cand_path
  exact List.dropLast_concat

/-! Termination of the collision search: among the first `totalEntries + 1`
candidates there is always a free one, because the candidates are pairwise
distinct paths while the filesystem holds only `totalEntries` entries. -/

theorem pathExists_iff_mem (fs : FS) (p : FsPath) :
    pathExists fs p ↔ p ∈ fs.files ++ fs.dirs := by
  simp [pathExists, List.mem_append]

theorem cand_exists_bound (fs : FS) (d : FsPath) (m : Nat)
    (h : ∀ j, 1 ≤ j → j ≤ m → pathExists fs (cand_path d j)) : m ≤ totalEntries fs := by
  classical
  have hinj : Set.InjOn (cand_path d) (Finset.Icc 1 m) :=
    fun i _ j _ hij => cand_path_inj d i j hij
  have hsub : (Finset.Icc 1 m).image (cand_path d) ⊆ (fs.files ++ fs.dirs).toFinset := by
    intro p hp
    simp only [Finset.mem_image, Finset.mem_Icc] at hp
    obtain ⟨j, ⟨hj1, hj2⟩, rfl⟩ := hp
    rw [List.mem_toFinset]
    exact (pathExists_iff_mem fs _).1 (h j hj1 hj2)
  have hcard : ((Finset.Icc 1 m).image (cand_path d)).card = m := by
    rw [Finset.card_image_of_injOn hinj, Nat.card_Icc]
    omega
  have hle := Finset.card_le_card hsub
  have htf : (fs.files ++ fs.dirs).toFinset.card ≤ totalEntries fs := by
    calc (fs.files ++ fs.dirs).toFinset.card ≤ (fs.files ++ fs.dirs).length :=
          (fs.files ++ fs.dirs).toFinset_card_le
      _ = totalEntries fs := by simp [totalEntries]
  omega

theorem exists_free_cand (fs : FS) (d : FsPath) :
    ∃ k, 1 ≤ k ∧ k ≤ totalEntries fs + 1 ∧ ¬ pathExists fs (cand_path d k) := by
  by_contra hall
  push_neg at hall
  have := cand_exists_bound fs d (totalEntries fs + 1) hall
  omega

theorem findFree_some_free (fs : FS) (cand : Nat → FsPath) :
    ∀ (fuel idx : Nat) (p : FsPath), findFree fs cand fuel idx = some p →
      ¬ pathExists fs p ∧ ∃ k, idx ≤ k ∧ k < idx + fuel ∧ p = cand k := by
  intro fuel
  induction fuel with
  | zero =>
      intro idx p h
      simp [findFree] at h
  | succ fuel ih =>
      intro idx p h
      simp only [findFree] at h
      by_cases hc : pathExists fs (cand idx)
      · rw [if_pos hc] at h
        obtain ⟨hfree, k, hk1, hk2, rfl⟩ := ih (idx + 1) p h
        exact ⟨hfree, k, by omega, by omega, rfl⟩
      · rw [if_neg hc] at h
        cases h
        exact ⟨hc, idx, le_refl _, by omega, rfl⟩

theorem findFree_isSome (fs : FS) (cand : Nat → FsPath) :
    ∀ (fuel idx : Nat), (∃ k, idx ≤ k ∧ k < idx + fuel ∧ ¬ pathExists fs (cand k)) →
      (findFree fs cand fuel idx).isSome = true := by
  intro fuel
  induction fuel with
  | zero =>
      rintro idx ⟨k, h1, h2, -⟩
      exact absurd h2 (by omega)
  | succ fuel ih =>
      rintro idx ⟨k, h1, h2, hfree⟩
      simp only [findFree]
      by_cases hc : pathExists fs (cand idx)
      · rw [if_pos hc]
        have hk : idx ≠ k := by
          rintro rfl
          exact hfree hc
        exact ih (idx + 1) ⟨k, by omega, by omega, hfree⟩
      · rw [if_neg hc]
        rfl

theorem findFree_least (fs : FS) (cand : Nat → FsPath) :
    ∀ (fuel idx k : Nat), idx ≤ k → k < idx + fuel →
      (∀ j, idx ≤ j → j < k → pathExists fs (cand j)) → ¬ pathExists fs (cand k) →
      findFree fs cand fuel idx = some (cand k) := by
  intro fuel
  induction fuel with
  | zero =>
      intro idx k h1 h2 _ _
      exact absurd h2 (by omega)
  | succ fuel ih =>
      intro idx k h1 h2 hall hfree
      simp only [findFree]
      rcases Nat.eq_or_lt_of_le h1 with rfl | hlt
      · rw [if_neg hfree]
      · rw [if_pos (hall idx (le_refl _) hlt)]
        exact ih (idx + 1) k hlt (by omega) (fun j hj1 hj2 => hall j (by omega) hj2) hfree

/-- The collision resolver's result never refers to an existing entry: the
contract "returns a path guaranteed to not currently exist". -/
theorem unique_destination_not_exists (fs : FS) (dest : FsPath) :
    ¬ pathExists fs (unique_destination fs dest) := by
  unfold unique_destination
  by_cases hd : pathExists fs dest
  · rw [if_pos hd]
    obtain ⟨k, hk1, hk2, hkfree⟩ := exists_free_cand fs dest
    have hs := findFree_isSome fs (cand_path dest) (totalEntries fs + 1) 1
      ⟨k, hk1, by omega, hkfree⟩
    cases hff : findFree fs (cand_path dest) (totalEntries fs + 1) 1 with
    | none =>
        rw [hff] at hs
        cases hs
    | some p =>
        exact (findFree_some_free fs (cand_path dest) _ _ p hff).1
  · rw [if_neg hd]
    exact hd

/-- The resolver keeps the destination inside the desired parent directory. -/
theorem unique_destination_dropLast (fs : FS) (dest : FsPath) :
    (unique_destination fs dest).dropLast = dest.dropLast := by
  unfold unique_destination
  by_cases hd : pathExists fs dest
  · rw [if_pos hd]
    cases hff : findFree fs (cand_path dest) (totalEntries fs + 1) 1 with
    | none => rfl
    | some p =>
        obtain ⟨-, k, -, -, rfl⟩ := findFree_some_free fs (cand_path dest) _ _ p hff
        exact cand_path_dropLast dest k
  · rw [if_neg hd]

/-! Frame lemmas for directory creation and the per-file step. -/

theorem foldl_addDir_files (l : List FsPath) : ∀ fs : FS, (l.foldl addDir fs).files = fs.files := by
  induction l with
  | nil => intro fs; rfl
  | cons q l ih =>
      intro fs
      rw [List.foldl_cons, ih]
      unfold addDir
      split <;> rfl

theorem mkdir_parents_files (fs : FS) (p : FsPath) : (mkdir_parents fs p).files = fs.files :=
  foldl_addDir_files (prefixList p) fs

theorem foldl_addDir_dirs_mono (l : List FsPath) :
    ∀ (fs : FS) (q : FsPath), q ∈ fs.dirs → q ∈ (l.foldl addDir fs).dirs := by
  induction l with
  | nil => intro fs q h; exact h
  | cons r l ih =>
      intro fs q h
      rw [List.foldl_cons]
      apply ih
      unfold addDir
      split
      · exact h
      · simp [h]

theorem mkdir_parents_dirs_mono (fs : FS) (p q : FsPath) (h : q ∈ fs.dirs) :
    q ∈ (mkdir_parents fs p).dirs :=
  foldl_addDir_dirs_mono _ fs q h

theorem move_file_dirs_mono (fs : FS) (src dd : FsPath) (dry : Bool) (q : FsPath)
    (h : q ∈ fs.dirs) : q ∈ (move_file fs src dd dry).1.dirs := by
  unfold move_file
  cases dry
  · exact mkdir_parents_dirs_mono fs dd q h
  · exact mkdir_parents_dirs_mono fs dd q h

/-- Shape of the filesystem after one real (non-dry) per-file step: the
source path is vacated and the file reappears at a fresh path whose parent
is the placement policy's destination directory. -/
theorem move_file_final_dest (fs : FS) (src dd : FsPath) (dry : Bool) :
    (move_file fs src dd dry).2.1 =
      unique_destination (mkdir_parents fs dd) (dd ++ [pname src]) := by
  unfold move_file
  cases dry <;> rfl

/-- The final destination of a move is fresh: it was no existing file. -/
theorem move_file_dest_fresh (fs : FS) (src dd : FsPath) (dry : Bool) :
    (move_file fs src dd dry).2.1 ∉ fs.files := by
  rw [move_file_final_dest]
  intro hmem
  apply unique_destination_not_exists (mkdir_parents fs dd) (dd ++ [pname src])
  left
  rw [mkdir_parents_files]
  exact hmem

/-- The final destination of a move sits directly inside the requested
destination directory. -/
theorem move_file_dest_dropLast (fs : FS) (src dd : FsPath) (dry : Bool) :
    (move_file fs src dd dry).2.1.dropLast = dd := by
  rw [move_file_final_dest, unique_destination_dropLast]
  exact List.dropLast_concat

/-- Shape of the filesystem after one real (non-dry) per-file step: the
source path is vacated and the file reappears at its fresh final
destination. -/
theorem processOne_files (fs : FS) (n : Nat) (target f : FsPath) (keep : Bool) :
    (processOne target keep false (fs, n) f).1.files =
      fs.files.erase f ++ [(move_file fs f (dest_dir_for target keep f) false).2.1] := by
  show (move_file fs f (dest_dir_for target keep f) false).1.files = _
  rw [move_file_final_dest]
  show (do_move (mkdir_parents fs (dest_dir_for target keep f)) f _).files = _
  unfold do_move
  rw [mkdir_parents_files]

theorem processOne_dirs_mono (st : FS × Nat) (target f : FsPath) (keep dry : Bool)
    (q : FsPath) (h : q ∈ st.1.dirs) : q ∈ (processOne target keep dry st f).1.dirs :=
  move_file_dirs_mono st.1 f (dest_dir_for target keep f) dry q h

/-- Every iteration of the organizer loop increments the counter: the action
tag is always `moved` or `dry-run`. -/
theorem processOne_count (st : FS × Nat) (target f : FsPath) (keep dry : Bool) :
    (processOne target keep dry st f).2 = st.2 + 1 := by
  unfold processOne move_file
  cases dry <;> simp

/-! Invariants of the organizer's fold over the materialized snapshot. -/

theorem foldl_process_count (target : FsPath) (keep dry : Bool) :
    ∀ (l : List FsPath) (st : FS × Nat),
      (l.foldl (processOne target keep dry) st).2 = st.2 + l.length := by
  intro l
  induction l with
  | nil => intro st; simp
  | cons f l ih =>
      intro st
      rw [List.foldl_cons, ih, processOne_count]
      simp only [List.length_cons]
      omega

theorem foldl_process_dirs_mono (target : FsPath) (keep dry : Bool) :
    ∀ (l : List FsPath) (st : FS × Nat) (q : FsPath), q ∈ st.1.dirs →
      q ∈ (l.foldl (processOne target keep dry) st).1.dirs := by
  intro l
  induction l with
  | nil => intro st q h; exact h
  | cons f l ih =>
      intro st q h
      rw [List.foldl_cons]
      exact ih _ q (processOne_dirs_mono st target f keep dry q h)

/-- Through a real run over a duplicate-free work list, the files that are
still scheduled stay present at their original paths, and the file list
stays duplicate-free: every step vacates exactly the path it processes and
lands on a path that did not exist. -/
theorem foldl_process_invariant (target : FsPath) (keep : Bool) :
    ∀ (l : List FsPath) (fs : FS) (n : Nat) (rest : List FsPath),
      fs.files.Nodup → (l ++ rest).Nodup → (∀ p ∈ l ++ rest, p ∈ fs.files) →
      (l.foldl (processOne target keep false) (fs, n)).1.files.Nodup ∧
      ∀ p ∈ rest, p ∈ (l.foldl (processOne target keep false) (fs, n)).1.files := by
  intro l
  induction l with
  | nil =>
      intro fs n rest h1 _ h3
      exact ⟨h1, fun p hp => h3 p (by simp [hp])⟩
  | cons f l ih =>
      intro fs n rest h1 h2 h3
      rw [List.foldl_cons]
      have hfl : f ∉ l ++ rest := (List.nodup_cons.1 h2).1
      have h2' : (l ++ rest).Nodup := (List.nodup_cons.1 h2).2
      have hdst := move_file_dest_fresh fs f (dest_dir_for target keep f) false
      have hfiles := processOne_files fs n target f keep
      have hnodup' : (processOne target keep false (fs, n) f).1.files.Nodup := by
        rw [hfiles]
        rw [List.nodup_append]
        refine ⟨h1.erase f, List.nodup_singleton _, ?_⟩
        intro a ha hb
        rw [List.mem_singleton] at hb
        subst hb
        exact hdst (List.erase_subset _ _ ha)
      have hmem' : ∀ p ∈ l ++ rest, p ∈ (processOne target keep false (fs, n) f).1.files := by
        intro p hp
        rw [hfiles]
        apply List.mem_append_left
        rw [List.mem_erase_of_ne]
        · exact h3 p (List.mem_cons_of_mem f hp)
        · intro hpf
          exact hfl (hpf ▸ hp)
      exact ih (processOne target keep false (fs, n) f).1
        (processOne target keep false (fs, n) f).2 rest hnodup' h2' hmem'

/-- After a completed real non-recursive run over all the direct children of
the target, no file sits directly in the target any more: every processed
file landed one level deeper, inside its label folder. -/
theorem foldl_process_no_top (target : FsPath) (keep : Bool) :
    ∀ (l : List FsPath) (fs : FS) (n : Nat),
      fs.files.Nodup → (∀ f ∈ l, f.dropLast = target) →
      (∀ p ∈ fs.files, p.dropLast = target → p ∈ l) →
      ∀ p ∈ (l.foldl (processOne target keep false) (fs, n)).1.files,
        p.dropLast ≠ target := by
  intro l
  induction l with
  | nil =>
      intro fs n _ _ h3 p hp htop
      exact absurd (h3 p hp htop) (List.not_mem_nil p)
  | cons f l ih =>
      intro fs n h1 h2 h3
      rw [List.foldl_cons]
      have hf : f.dropLast = target := h2 f (List.mem_cons_self f l)
      have hdd : (move_file fs f (dest_dir_for target keep f) false).2.1.dropLast =
          target ++ [extension_folder_name (py_suffix (pname f))] := by
        rw [move_file_dest_dropLast]
        cases keep <;> simp [dest_dir_for, hf]
      have hdst := move_file_dest_fresh fs f (dest_dir_for target keep f) false
      have hfiles := processOne_files fs n target f keep
      have hnodup' : (processOne target keep false (fs, n) f).1.files.Nodup := by
        rw [hfiles, List.nodup_append]
        refine ⟨h1.erase f, List.nodup_singleton _, ?_⟩
        intro a ha hb
        rw [List.mem_singleton] at hb
        subst hb
        exact hdst (List.erase_subset _ _ ha)
      apply ih (processOne target keep false (fs, n) f).1
        (processOne target keep false (fs, n) f).2 hnodup'
        (fun g hg => h2 g (List.mem_cons_of_mem f hg))
      intro p hp htop
      rw [hfiles] at hp
      rcases List.mem_append.1 hp with hp | hp
      · rcases (List.Nodup.mem_erase_iff h1).1 hp with ⟨hpf, hpm⟩
        rcases List.mem_cons.1 (h3 p hpm htop) with rfl | hl
        · exact absurd rfl hpf
        · exact hl
      · rw [List.mem_singleton] at hp
        subst hp
        rw [hdd] at htop
        have := congrArg List.length htop
        simp at this

/-! Claim theorems. -/

/-- C1: for a desired destination `d` the collision resolver returns `d`
unchanged when `d` does not exist; and when `d` exists it returns the
candidate `name(k).ext` for the smallest index `k ≥ 1` whose candidate does
not exist (all earlier candidates existing), with the candidate placed in
`d`'s parent directory and its name built from `d`'s stem and suffix. -/
theorem claim_C1_unique_destination (fs : FS) (d : FsPath) (k : Nat) :
    (¬ pathExists fs d → unique_destination fs d = d) ∧
    (pathExists fs d → 1 ≤ k → ¬ pathExists fs (cand_path d k) →
      (∀ j, 1 ≤ j → j < k → pathExists fs (cand_path d j)) →
      unique_destination fs d = cand_path d k ∧
      (cand_path d k).dropLast = d.dropLast ∧
      pname (cand_path d k) = candName (py_stem (pname d)) (py_suffix (pname d)) k) := by
  constructor
  · intro hd
    unfold unique_destination
    rw [if_neg hd]
  · intro hd hk1 hkfree hall
    have hbound : k - 1 ≤ totalEntries fs := by
      apply cand_exists_bound fs d (k - 1)
      intro j hj1 hj2
      exact hall j hj1 (by omega)
    have hff := findFree_least fs (cand_path d) (totalEntries fs + 1) 1 k hk1 (by omega)
      (fun j hj1 hj2 => hall j hj1 hj2) hkfree
    refine ⟨?_, cand_path_dropLast d k, ?_⟩
    · unfold unique_destination
      rw [if_pos hd, hff]
    · unfold pname cand_path
      rw [List.getLast?_concat]
      rfl

/-- Witness for C1 at a concrete input: `a.txt` exists, `a(1).txt` is free,
so the resolver returns `a(1).txt`. -/
theorem claim_C1_witness :
    pathExists ⟨[["a.txt"]], []⟩ ["a.txt"] ∧
    ¬ pathExists ⟨[["a.txt"]], []⟩ (cand_path ["a.txt"] 1) ∧
    unique_destination ⟨[["a.txt"]], []⟩ ["a.txt"] = cand_path ["a.txt"] 1 :=
  ⟨by decide, by decide,
    ((claim_C1_unique_destination ⟨[["a.txt"]], []⟩ ["a.txt"] 1).2 (by decide) (le_refl 1)
      (by decide) (fun j hj1 hj2 => absurd (Nat.lt_of_le_of_lt hj1 hj2) (lt_irrefl 1))).1⟩

/-- C5: the candidate-generation loop of the collision resolver terminates
on every (finite) filesystem state and every destination: the fuel-bounded
search used by `unique_destination` always finds a free candidate within its
a-priori fuel `totalEntries + 1`, so the unbounded source loop stops after
at most that many iterations. -/
theorem claim_C5_resolver_terminates (fs : FS) (dest : FsPath) :
    (findFree fs (cand_path dest) (totalEntries fs + 1) 1).isSome = true := by
  obtain ⟨k, hk1, hk2, hkfree⟩ := exists_free_cand fs dest
  exact findFree_isSome fs (cand_path dest) (totalEntries fs + 1) 1 ⟨k, hk1, by omega, hkfree⟩

/-- C4 as stated is false on the code: the name `.bashrc` has non-empty
text after its last dot (namely `bashrc`), so the claim demands the label
`bashrc`; but Python's `suffix` is empty for a leading-dot-only name, so the
classifier pipeline returns the sentinel `no_extension` instead. -/
theorem claim_C4_counterexample :
    lastDotSuffix ".bashrc".data = some "bashrc".data ∧
    "bashrc".data ≠ [] ∧
    extension_folder_name (py_suffix ".bashrc") = "no_extension" ∧
    extension_folder_name (py_suffix ".bashrc") ≠ str_lower "bashrc" :=
  ⟨by decide, by decide, by decide, by decide⟩

/-- C4 (amended): the classifier is a total function of the name; whenever
the name has a non-empty Python suffix — it splits as `pre.E` with `pre`
and `E` non-empty and `E` dot-free — the label is `E` lowercased with the
dot stripped (so any case combination of the same extension yields the same
lowercase label); whenever the Python suffix is empty (dot-less names, but
also hidden names like `.bashrc` and names ending in a dot) the label is
the fixed sentinel `no_extension`. -/
theorem claim_C4_classifier :
    (∀ pre E : List Char, '.' ∉ E → pre ≠ [] → E ≠ [] →
      extension_folder_name (py_suffix ⟨pre ++ '.' :: E⟩) = ⟨E.map Char.toLower⟩) ∧
    (∀ name : String, py_suffix name = "" →
      extension_folder_name (py_suffix name) = "no_extension") := by
  constructor
  · intro pre E hE hpre hne
    rw [py_suffix_split pre E hE hpre hne, label_of_suffix E hE hne]
  · intro name h
    rw [h]
    decide

/-- Witness for the amended C4 at `a.JPG`: the label is `jpg`. -/
theorem claim_C4_witness :
    ('.' ∉ "JPG".data ∧ "a".data ≠ [] ∧ "JPG".data ≠ []) ∧
    extension_folder_name (py_suffix ⟨"a".data ++ '.' :: "JPG".data⟩) =
      ⟨"JPG".data.map Char.toLower⟩ :=
  ⟨⟨by decide, by decide, by decide⟩,
    claim_C4_classifier.1 "a".data "JPG".data (by decide) (by decide) (by decide)⟩

/-- C9: every label the classifier can compute from a file name is a
non-empty string starting with neither a dot nor a path separator; names
without a usable extension (no dot, only dots, trailing dot) fall back to
the sentinel, which also satisfies the invariant.  The hypothesis records
that a file name, being a single path component, holds no separator. -/
theorem claim_C9_label_invariant (name : String) (hsep : '/' ∉ name.data) :
    extension_folder_name (py_suffix name) ≠ "" ∧
    (extension_folder_name (py_suffix name)).data.head? ≠ some '.' ∧
    (extension_folder_name (py_suffix name)).data.head? ≠ some '/' := by
  cases hcase : lastDotSuffix name.data with
  | none =>
      have h : py_suffix name = "" := by simp [py_suffix, hcase]
      rw [h]
      exact ⟨by decide, by decide, by decide⟩
  | some rest =>
      obtain ⟨pre, hname, hnd⟩ := lastDotSuffix_some name.data rest hcase
      by_cases hcond : rest ≠ [] ∧ rest.length + 1 < name.data.length
      · have hps : py_suffix name = ⟨'.' :: rest⟩ := by
          simp only [py_suffix, hcase]
          rw [if_pos hcond]
        rw [hps, label_of_suffix rest hnd hcond.1]
        obtain ⟨e, rest', rfl⟩ : ∃ e rest', rest = e :: rest' := by
          cases rest with
          | nil => exact absurd rfl hcond.1
          | cons a b => exact ⟨a, b, rfl⟩
        have he_dot : e ≠ '.' := fun h => hnd (by simp [h])
        have he_sep : e ≠ '/' := by
          intro h
          apply hsep
          rw [hname, h]
          simp
        refine ⟨?_, ?_, ?_⟩
        · simp [String.ext_iff]
        · simp only [List.map_cons, List.head?_cons, ne_eq, Option.some.injEq]
          exact toLower_ne_of_ne e '.' (by decide) he_dot
        · simp only [List.map_cons, List.head?_cons, ne_eq, Option.some.injEq]
          exact toLower_ne_of_ne e '/' (by decide) he_sep
      · have h : py_suffix name = "" := by
          simp only [py_suffix, hcase]
          rw [if_neg hcond]
        rw [h]
        exact ⟨by decide, by decide, by decide⟩

/-- Witness for C9 at the concrete name `a.JPG`. -/
theorem claim_C9_witness :
    '/' ∉ "a.JPG".data ∧
    extension_folder_name (py_suffix "a.JPG") ≠ "" ∧
    (extension_folder_name (py_suffix "a.JPG")).data.head? ≠ some '.' ∧
    (extension_folder_name (py_suffix "a.JPG")).data.head? ≠ some '/' :=
  ⟨by decide,
    (claim_C9_label_invariant "a.JPG" (by decide)).1,
    (claim_C9_label_invariant "a.JPG" (by decide)).2.1,
    (claim_C9_label_invariant "a.JPG" (by decide)).2.2⟩

/-- C2 fails on the code: `move_file` creates the destination directory
(source line 89) before it checks `dry_run` (source line 93), so a dry-run
over a target holding `a.txt` and no `txt` folder creates the directory
`t/txt` even though no file moves.  This theorem evaluates the organizer at
that failing input: the files are untouched, but a new label directory
appears, so the filesystem state after the dry-run differs from the state
before it. -/
theorem claim_C2_dry_run_creates_directory :
    (organize_directory ⟨[["t", "a.txt"]], [["t"]]⟩ ["t"] false true true).1.files =
      [["t", "a.txt"]] ∧
    ["t", "txt"] ∈
      (organize_directory ⟨[["t", "a.txt"]], [["t"]]⟩ ["t"] false true true).1.dirs ∧
    (organize_directory ⟨[["t", "a.txt"]], [["t"]]⟩ ["t"] false true true).1 ≠
      ⟨[["t", "a.txt"]], [["t"]]⟩ :=
  ⟨by decide, by decide, by decide⟩

/-- C6: on a target that is not an existing directory the organizer returns
zero immediately, leaves the filesystem untouched, and (being a total
function in the model, mirroring the early `return 0` of source lines
118-120) surfaces no exception. -/
theorem claim_C6_invalid_target (fs : FS) (target : FsPath)
    (recursive dry_run keep_top_level : Bool) (h : target ∉ fs.dirs) :
    organize_directory fs target recursive dry_run keep_top_level = (fs, 0) := by
  unfold organize_directory
  rw [if_neg h]

/-- Witness for C6: a run on a missing target returns zero with no change. -/
theorem claim_C6_witness :
    (["nope"] ∉ (⟨[], []⟩ : FS).dirs) ∧
    organize_directory ⟨[], []⟩ ["nope"] false false true = (⟨[], []⟩, 0) :=
  ⟨by decide, claim_C6_invalid_target ⟨[], []⟩ ["nope"] false false true (by decide)⟩

/-- C7: the destination directory of every processed file is
`target/<label>` when `keep_top_level` is true — whatever the file's depth
— and `<parent of f>/<label>` when it is false, where `<label>` is the
file's extension label; and the per-file move lands its final destination
directly inside that directory. -/
theorem claim_C7_placement_policy (target f : FsPath) :
    dest_dir_for target true f =
      target ++ [extension_folder_name (py_suffix (pname f))] ∧
    dest_dir_for target false f =
      f.dropLast ++ [extension_folder_name (py_suffix (pname f))] ∧
    ∀ (fs : FS) (keep dry : Bool),
      (move_file fs f (dest_dir_for target keep f) dry).2.1.dropLast =
        dest_dir_for target keep f :=
  ⟨rfl, rfl, fun fs keep dry => move_file_dest_dropLast fs f (dest_dir_for target keep f) dry⟩

/-- C10: on a valid target the organizer's returned count equals the number
of files in the walker's initial snapshot: every enumerated file's action
tag (`moved`, or `dry-run` when simulating) increments the count, and no
execution path of the loop produces any other tag. -/
theorem claim_C10_count (fs : FS) (target : FsPath)
    (recursive dry_run keep_top_level : Bool) (h : target ∈ fs.dirs) :
    (organize_directory fs target recursive dry_run keep_top_level).2 =
      (get_files_to_move fs target recursive).length := by
  unfold organize_directory
  rw [if_pos h, foldl_process_count]
  omega

/-- Witness for C10 on a two-file directory: the count is the snapshot
size. -/
theorem claim_C10_witness :
    (["t"] ∈ (⟨[["t", "a.jpg"], ["t", "b"]], [["t"]]⟩ : FS).dirs) ∧
    (organize_directory ⟨[["t", "a.jpg"], ["t", "b"]], [["t"]]⟩ ["t"] false false true).2 =
      (get_files_to_move ⟨[["t", "a.jpg"], ["t", "b"]], [["t"]]⟩ ["t"] false).length :=
  ⟨by decide, claim_C10_count ⟨[["t", "a.jpg"], ["t", "b"]], [["t"]]⟩ ["t"] false false true
    (by decide)⟩

theorem get_files_nonrec (fs : FS) (root : FsPath) :
    get_files_to_move fs root false =
      fs.files.filter (fun p => decide (p.dropLast = root)) := rfl

theorem get_files_subset (fs : FS) (root : FsPath) (recursive : Bool) :
    ∀ p ∈ get_files_to_move fs root recursive, p ∈ fs.files := by
  intro p hp
  unfold get_files_to_move at hp
  split at hp <;> exact (List.mem_filter.1 hp).1

theorem get_files_nodup (fs : FS) (root : FsPath) (recursive : Bool)
    (h : fs.files.Nodup) : (get_files_to_move fs root recursive).Nodup := by
  unfold get_files_to_move
  split <;> exact h.filter _

/-- C8: the walker's full snapshot is materialized from the initial state
before any move is attempted — on a valid target the run is exactly the
per-file fold over `get_files_to_move` of the initial filesystem — and the
scheduled set never changes as a result of moves: when the run reaches the
scheduled file `f` (snapshot split `L1 ++ f :: L2`), the destination it
moves `f` to is not `f` and not any path still scheduled in `L2`, so a moved
file is never re-visited within the same run. -/
theorem claim_C8_snapshot (fs : FS) (target : FsPath) (recursive keep : Bool)
    (L1 L2 : List FsPath) (f : FsPath)
    (hnodup : fs.files.Nodup) (hdir : target ∈ fs.dirs)
    (hsplit : get_files_to_move fs target recursive = L1 ++ f :: L2) :
    organize_directory fs target recursive false keep =
      (get_files_to_move fs target recursive).foldl
        (processOne target keep false) (fs, 0) ∧
    (move_file (L1.foldl (processOne target keep false) (fs, 0)).1 f
        (dest_dir_for target keep f) false).2.1 ∉ f :: L2 := by
  constructor
  · unfold organize_directory
    rw [if_pos hdir]
  · have hsub := get_files_subset fs target recursive
    have hnd := get_files_nodup fs target recursive hnodup
    rw [hsplit] at hsub hnd
    have hinv := foldl_process_invariant target keep L1 fs 0 (f :: L2) hnodup hnd
      (fun p hp => hsub p hp)
    intro hmem
    exact move_file_dest_fresh (L1.foldl (processOne target keep false) (fs, 0)).1 f
      (dest_dir_for target keep f) false (hinv.2 _ hmem)

/-- Witness for C8 on a two-file directory, at the split that schedules
`t/b.txt` second. -/
theorem claim_C8_witness :
    ((⟨[["t", "a.jpg"], ["t", "b.txt"]], [["t"]]⟩ : FS).files.Nodup ∧
      ["t"] ∈ (⟨[["t", "a.jpg"], ["t", "b.txt"]], [["t"]]⟩ : FS).dirs ∧
      get_files_to_move ⟨[["t", "a.jpg"], ["t", "b.txt"]], [["t"]]⟩ ["t"] false =
        [["t", "a.jpg"]] ++ ["t", "b.txt"] :: []) ∧
    organize_directory ⟨[["t", "a.jpg"], ["t", "b.txt"]], [["t"]]⟩ ["t"] false false true =
      (get_files_to_move ⟨[["t", "a.jpg"], ["t", "b.txt"]], [["t"]]⟩ ["t"] false).foldl
        (processOne ["t"] true false) (⟨[["t", "a.jpg"], ["t", "b.txt"]], [["t"]]⟩, 0) ∧
    (move_file (([["t", "a.jpg"]] : List FsPath).foldl (processOne ["t"] true false)
        (⟨[["t", "a.jpg"], ["t", "b.txt"]], [["t"]]⟩, 0)).1 ["t", "b.txt"]
        (dest_dir_for ["t"] true ["t", "b.txt"]) false).2.1 ∉ ["t", "b.txt"] :: [] := by
  have h := claim_C8_snapshot ⟨[["t", "a.jpg"], ["t", "b.txt"]], [["t"]]⟩ ["t"] false true
    [["t", "a.jpg"]] [] ["t", "b.txt"] (by decide) (by decide) (by decide)
  exact ⟨⟨by decide, by decide, by decide⟩, h.1, h.2⟩

/-- C3 fails as stated for recursive runs: after one completed recursive
run has moved `t/a.jpg` to `t/jpg/a.jpg`, a second identical run finds
`t/jpg/a.jpg` again, collides with it (the desired destination is the file
itself) and renames it to `t/jpg/a(1).jpg` — one additional move, not
zero. -/
theorem claim_C3_counterexample :
    (organize_directory ⟨[["t", "a.jpg"]], [["t"]]⟩ ["t"] true false true).2 = 1 ∧
    (organize_directory
        (organize_directory ⟨[["t", "a.jpg"]], [["t"]]⟩ ["t"] true false true).1
        ["t"] true false true).2 = 1 ∧
    (organize_directory
        (organize_directory ⟨[["t", "a.jpg"]], [["t"]]⟩ ["t"] true false true).1
        ["t"] true false true).2 ≠ 0 :=
  ⟨by decide, by decide, by decide⟩

/-- C3 (amended): idempotence-after-completion holds for non-recursive
runs: after one completed real (non-dry-run) non-recursive organizer run on
a duplicate-free filesystem, a second run with the same settings moves zero
additional files, for either placement policy — every direct child of the
target was relocated one level deeper into its label folder, so the second
snapshot is empty.  Recursive runs violate the claim, as the counterexample
shows. -/
theorem claim_C3_idempotent_nonrecursive (fs : FS) (target : FsPath) (keep : Bool)
    (hnodup : fs.files.Nodup) :
    (organize_directory (organize_directory fs target false false keep).1
      target false false keep).2 = 0 := by
  by_cases hdir : target ∈ fs.dirs
  · have h1 : organize_directory fs target false false keep =
        (get_files_to_move fs target false).foldl (processOne target keep false) (fs, 0) := by
      unfold organize_directory
      rw [if_pos hdir]
    have hmono : target ∈
        ((get_files_to_move fs target false).foldl
          (processOne target keep false) (fs, 0)).1.dirs :=
      foldl_process_dirs_mono target keep false _ (fs, 0) target hdir
    have hno := foldl_process_no_top target keep (get_files_to_move fs target false) fs 0
      hnodup
      (fun g hg => by
        rw [get_files_nonrec] at hg
        exact of_decide_eq_true (List.mem_filter.1 hg).2)
      (fun p hp htop => by
        rw [get_files_nonrec]
        exact List.mem_filter.2 ⟨hp, decide_eq_true htop⟩)
    have hempty : get_files_to_move
        ((get_files_to_move fs target false).foldl
          (processOne target keep false) (fs, 0)).1 target false = [] := by
      rw [get_files_nonrec]
      rw [List.filter_eq_nil_iff]
      intro p hp
      simpa using hno p hp
    rw [h1]
    unfold organize_directory
    rw [if_pos hmono, hempty]
    rfl
  · have h1 : organize_directory fs target false false keep = (fs, 0) := by
      unfold organize_directory
      rw [if_neg hdir]
    rw [h1]
    show (organize_directory fs target false false keep).2 = 0
    rw [h1]

/-- Witness for the amended C3: a singleton directory is organized once,
and the second non-recursive run moves nothing. -/
theorem claim_C3_witness :
    (⟨[["t", "a.jpg"]], [["t"]]⟩ : FS).files.Nodup ∧
    (organize_directory
        (organize_directory ⟨[["t", "a.jpg"]], [["t"]]⟩ ["t"] false false true).1
        ["t"] false false true).2 = 0 :=
  ⟨by decide,
    claim_C3_idempotent_nonrecursive ⟨[["t", "a.jpg"]], [["t"]]⟩ ["t"] true (by decide)⟩

end FileOrganizer
